import Mathlib

/-!
Verification of the `pgp-disc` repository: a shallow embedding of
`crates/crypto/src/gpg.rs` (subprocess invocation and colon-format parsing)
and `crates/transport/src/lib.rs` (gateway event forwarding and paginated
history fetch), together with theorems about the embedded definitions.

Lean 4.14's `String` is a structure wrapping `List Char`, so the Rust
string operations used by the sources are modelled character-by-character;
every definition is computable.
-/

namespace PgpDisc

/-! ### Models of the Rust `str` operations used by `gpg.rs` -/

/-- Model of Rust `str::split(c)` for a one-character separator: `n`
occurrences of the separator yield `n + 1` pieces, empty pieces included. -/
def splitChar (c : Char) : List Char → List (List Char)
  | [] => [[]]
  | x :: xs =>
    let r := splitChar c xs
    if x = c then [] :: r
    else
      match r with
      | [] => [[x]]
      | h :: t => (x :: h) :: t

/-- Rust `str::split(c)` lifted to `String`. -/
def rustSplit (c : Char) (s : String) : List String :=
  (splitChar c s.data).map String.mk

/-- One trailing carriage return is removed from a `'\n'`-terminated piece,
as Rust `str::lines` does. -/
def stripTrailingCr (l : List Char) : List Char :=
  if l.getLast? = some '\r' then l.dropLast else l

/-- Model of Rust `str::lines`: split on `'\n'`; every piece that was
terminated by `'\n'` loses one trailing `'\r'`; the final piece is kept as-is
when non-empty (it had no terminator) and is not a line when empty. -/
def rustLines (s : String) : List String :=
  let pieces := splitChar '\n' s.data
  let term := (pieces.dropLast).map stripTrailingCr
  let lastPiece := (pieces.getLast?).getD []
  (if lastPiece = [] then term else term ++ [lastPiece]).map String.mk

/-- Rust `s.lines().next().unwrap_or("")`: the first line of `s`, or the
empty string when `s` has no line. -/
def firstLine (s : String) : String :=
  ((rustLines s).head?).getD ""

/-- The Unicode `White_Space` characters, which is what Rust
`char::is_whitespace` (and hence `str::trim`) recognises. -/
def rustIsWhitespace (c : Char) : Bool :=
  [' ', '\t', '\n', '\x0b', '\x0c', '\r', '\u0085', '\u00a0', '\u1680',
   '\u2000', '\u2001', '\u2002', '\u2003', '\u2004', '\u2005', '\u2006',
   '\u2007', '\u2008', '\u2009', '\u200a', '\u2028', '\u2029', '\u202f',
   '\u205f', '\u3000'].contains c

/-- Model of Rust `str::trim`: drop whitespace from both ends. -/
def rustTrim (s : String) : String :=
  String.mk (((s.data.dropWhile rustIsWhitespace).reverse.dropWhile
    rustIsWhitespace).reverse)

/-- `startsWithChars pat l` holds when `pat` is an initial segment of `l`. -/
def startsWithChars : List Char → List Char → Bool
  | [], _ => true
  | _ :: _, [] => false
  | p :: ps, c :: cs => p = c && startsWithChars ps cs

/-- Model of Rust `str::starts_with(pat)`. -/
def rustStartsWith (s pat : String) : Bool :=
  startsWithChars pat.data s.data

/-- Lexicographic comparison of character lists by code point; UTF-8 byte
order (what Rust `Ord for String` compares) coincides with code-point
order, so this is the order `Vec::<String>::sort` uses. -/
def charListLe : List Char → List Char → Bool
  | [], _ => true
  | _ :: _, [] => false
  | a :: as, b :: bs => if a < b then true else if b < a then false else charListLe as bs

/-- Rust `Ord for String` as a total order test. -/
def strLe (a b : String) : Bool :=
  charListLe a.data b.data

/-- Ordered insertion for `rustSort`. -/
def insertStr (x : String) : List String → List String
  | [] => [x]
  | y :: ys => if strLe x y then x :: y :: ys else y :: insertStr x ys

/-- Model of Rust `Vec::<String>::sort()`: a comparison sort; on a total
order the sorted arrangement of a list is unique, so insertion sort computes
the same list as Rust's stable merge sort. -/
def rustSort : List String → List String
  | [] => []
  | x :: xs => insertStr x (rustSort xs)

/-- Model of Rust `Vec::dedup()`: remove consecutive repeated elements. -/
def rustDedup : List String → List String
  | [] => []
  | [a] => [a]
  | a :: b :: rest => if a = b then rustDedup (b :: rest) else a :: rustDedup (b :: rest)

/-! ### The key-store inspector (`gpg.rs`)

Subprocess execution is embedded by passing the outcome of
`Command::new("gpg")...output()` explicitly: either a finished process
(exit status plus captured, lossily-decoded output) or a spawn error
carrying its `std::io::ErrorKind`. -/

/-- Captured result of a finished subprocess: `status.success()` plus the
lossily UTF-8-decoded standard output and standard error. -/
structure ProcOutput where
  success : Bool
  stdout : String
  stderr : String
deriving DecidableEq

/-- The `std::io::ErrorKind` values distinguished by `gpg.rs`:
`NotFound` is tested for; every other kind (e.g. `PermissionDenied`) takes
the error path. -/
inductive RunErrorKind where
  | notFound
  | permissionDenied
  | otherKind (code : Nat)
deriving DecidableEq

/-- A spawn failure from `Command::output()`. -/
structure RunError where
  kind : RunErrorKind
  msg : String
deriving DecidableEq

/-- Outcome of `Command::new("gpg").arg("--version").output()`. -/
abbrev SpawnResult := Except RunError ProcOutput

/-- Model of `available()` in `gpg.rs`. -/
def available (r : SpawnResult) : Except String Bool :=
  match r with
  | .ok o => .ok o.success
  | .error e =>
    if e.kind = RunErrorKind.notFound then .ok false
    else .error ("Failed to run gpg: " ++ e.msg)

/-- Model of `version_line()` in `gpg.rs`. -/
def version_line (r : SpawnResult) : Except String String :=
  match r with
  | .error e => .error ("Failed to run gpg: " ++ e.msg)
  | .ok o =>
    if o.success then .ok (firstLine o.stdout)
    else .error "gpg --version failed"

/-- One line of the colon-delimited listing, as treated by the loop body of
`parse_colons_fprs`: a line starting with `"fpr:"` whose 10th colon field
trims to a non-empty string contributes that trimmed string. -/
def lineFpr (line : String) : Option String :=
  if rustStartsWith line "fpr:" then
    if h : 9 < (rustSplit ':' line).length then
      if rustTrim ((rustSplit ':' line).get ⟨9, h⟩) ≠ "" then
        some (rustTrim ((rustSplit ':' line).get ⟨9, h⟩))
      else none
    else none
  else none

/-- The body of `parse_colons_fprs` after line splitting: collect the
per-line contributions in order, then `sort` and `dedup`. -/
def parseLines (ls : List String) : List String :=
  rustDedup (rustSort (ls.filterMap lineFpr))

/-- Model of `parse_colons_fprs` in `gpg.rs`. -/
def parse_colons_fprs (colons : String) : List String :=
  parseLines (rustLines colons)

/-- Model of `list_secret_fingerprints()` in `gpg.rs`, with the outcome of
`Command::new("gpg").args(["--batch", "--with-colons",
"--list-secret-keys"]).output()` passed explicitly. -/
def list_secret_fingerprints (r : SpawnResult) : Except String (List String) :=
  match r with
  | .error e => .error ("Failed to run gpg: " ++ e.msg)
  | .ok o =>
    if o.success then .ok (parse_colons_fprs o.stdout)
    else .error ("gpg list-secret-keys failed: " ++ o.stderr)

/-- Modelled from the words of claim C1, not from the source, for
comparison with `parse_colons_fprs`: the distinct non-empty 10th-field
values (untrimmed) of lines starting with `"fpr:"`, sorted. -/
def claimedFprs (colons : String) : List String :=
  rustDedup (rustSort ((rustLines colons).filterMap (fun line =>
    if rustStartsWith line "fpr:" then
      ((rustSplit ':' line).get? 9).bind (fun v => if v ≠ "" then some v else none)
    else none)))

/-! ### Order lemmas for the sorting comparison -/

theorem charListLe_total : ∀ a b : List Char, charListLe a b = true ∨ charListLe b a = true := by
  intro a
  induction a with
  | nil => intro b; left; rfl
  | cons x xs ih =>
    intro b
    cases b with
    | nil => right; rfl
    | cons y ys =>
      rcases lt_trichotomy x y with h | h | h
      · left; simp [charListLe, h]
      · subst h
        rcases ih ys with h2 | h2
        · left; simp [charListLe, lt_irrefl, h2]
        · right; simp [charListLe, lt_irrefl, h2]
      · right; simp [charListLe, h]

theorem charListLe_trans : ∀ a b c : List Char,
    charListLe a b = true → charListLe b c = true → charListLe a c = true := by
  intro a
  induction a with
  | nil => intro b c _ _; rfl
  | cons x xs ih =>
    intro b c hab hbc
    cases b with
    | nil => simp [charListLe] at hab
    | cons y ys =>
      cases c with
      | nil => simp [charListLe] at hbc
      | cons z zs =>
        simp only [charListLe] at hab hbc ⊢
        rcases lt_trichotomy x y with h1 | h1 | h1
        · rcases lt_trichotomy y z with h2 | h2 | h2
          · simp [lt_trans h1 h2]
          · subst h2; simp [h1]
          · rw [if_neg (lt_asymm h2), if_pos h2] at hbc; cases hbc
        · subst h1
          rw [if_neg (lt_irrefl x), if_neg (lt_irrefl x)] at hab
          rcases lt_trichotomy x z with h2 | h2 | h2
          · simp [h2]
          · subst h2
            rw [if_neg (lt_irrefl x), if_neg (lt_irrefl x)] at hbc ⊢
            exact ih ys zs hab hbc
          · rw [if_neg (lt_asymm h2), if_pos h2] at hbc; cases hbc
        · rw [if_neg (lt_asymm h1), if_pos h1] at hab; cases hab

theorem charListLe_antisymm : ∀ a b : List Char,
    charListLe a b = true → charListLe b a = true → a = b := by
  intro a
  induction a with
  | nil =>
    intro b _ hba
    cases b with
    | nil => rfl
    | cons y ys => simp [charListLe] at hba
  | cons x xs ih =>
    intro b hab hba
    cases b with
    | nil => simp [charListLe] at hab
    | cons y ys =>
      simp only [charListLe] at hab hba
      rcases lt_trichotomy x y with h1 | h1 | h1
      · rw [if_neg (lt_asymm h1), if_pos h1] at hba; cases hba
      · subst h1
        rw [if_neg (lt_irrefl x), if_neg (lt_irrefl x)] at hab hba
        rw [ih ys hab hba]
      · rw [if_neg (lt_asymm h1), if_pos h1] at hab; cases hab

theorem strLe_total (a b : String) : strLe a b = true ∨ strLe b a = true :=
  charListLe_total a.data b.data

theorem strLe_trans {a b c : String} (h1 : strLe a b = true) (h2 : strLe b c = true) :
    strLe a c = true :=
  charListLe_trans a.data b.data c.data h1 h2

theorem strLe_antisymm {a b : String} (h1 : strLe a b = true) (h2 : strLe b a = true) :
    a = b := by
  cases a with
  | mk da =>
    cases b with
    | mk db => exact congrArg String.mk (charListLe_antisymm da db h1 h2)

/-! ### Sorting and deduplication lemmas -/

theorem insertStr_cons (x y : String) (ys : List String) :
    insertStr x (y :: ys) = if strLe x y then x :: y :: ys else y :: insertStr x ys := rfl

theorem rustDedup_cons₂ (a b : String) (rest : List String) :
    rustDedup (a :: b :: rest) =
      if a = b then rustDedup (b :: rest) else a :: rustDedup (b :: rest) := rfl

theorem mem_insertStr (x v : String) : ∀ l : List String, v ∈ insertStr x l ↔ v = x ∨ v ∈ l := by
  intro l
  induction l with
  | nil => simp [insertStr]
  | cons y ys ih =>
    by_cases h : strLe x y = true
    · rw [insertStr_cons, if_pos h]
      simp [List.mem_cons]
    · rw [insertStr_cons, if_neg h]
      simp only [List.mem_cons, ih]
      tauto

theorem mem_rustSort (v : String) : ∀ l : List String, v ∈ rustSort l ↔ v ∈ l := by
  intro l
  induction l with
  | nil => simp [rustSort]
  | cons x xs ih => simp [rustSort, mem_insertStr, ih]

theorem sorted_insertStr (x : String) :
    ∀ l : List String, l.Sorted (fun a b => strLe a b = true) →
      (insertStr x l).Sorted (fun a b => strLe a b = true) := by
  intro l
  induction l with
  | nil => intro _; simp [insertStr]
  | cons y ys ih =>
    intro hs
    rw [List.sorted_cons] at hs
    obtain ⟨hy, hys⟩ := hs
    by_cases h : strLe x y = true
    · rw [insertStr_cons, if_pos h]
      rw [List.sorted_cons]
      refine ⟨?_, List.sorted_cons.mpr ⟨hy, hys⟩⟩
      intro b hb
      rcases List.mem_cons.mp hb with rfl | hb
      · exact h
      · exact strLe_trans h (hy b hb)
    · have hyx : strLe y x = true := (strLe_total x y).resolve_left h
      rw [insertStr_cons, if_neg h]
      rw [List.sorted_cons]
      refine ⟨?_, ih hys⟩
      intro b hb
      rcases (mem_insertStr x b ys).mp hb with rfl | hb
      · exact hyx
      · exact hy b hb

theorem sorted_rustSort : ∀ l : List String, (rustSort l).Sorted (fun a b => strLe a b = true) := by
  intro l
  induction l with
  | nil => simp [rustSort]
  | cons x xs ih => exact sorted_insertStr x (rustSort xs) ih

theorem mem_rustDedup (v : String) : ∀ l : List String, v ∈ rustDedup l ↔ v ∈ l := by
  intro l
  induction l with
  | nil => simp [rustDedup]
  | cons a tail ih =>
    cases tail with
    | nil => simp [rustDedup]
    | cons b rest =>
      by_cases h : a = b
      · subst h
        rw [rustDedup_cons₂, if_pos rfl, ih]
        simp [List.mem_cons]
      · rw [rustDedup_cons₂, if_neg h, List.mem_cons, ih, List.mem_cons]
        simp [List.mem_cons]

theorem sorted_rustDedup :
    ∀ l : List String, l.Sorted (fun a b => strLe a b = true) →
      (rustDedup l).Sorted (fun a b => strLe a b = true) := by
  intro l
  induction l with
  | nil => intro _; simp [rustDedup]
  | cons a tail ih =>
    intro hs
    rw [List.sorted_cons] at hs
    obtain ⟨ha, htail⟩ := hs
    cases tail with
    | nil => simp [rustDedup]
    | cons b rest =>
      by_cases h : a = b
      · subst h
        rw [rustDedup_cons₂, if_pos rfl]
        exact ih htail
      · rw [rustDedup_cons₂, if_neg h]
        rw [List.sorted_cons]
        refine ⟨?_, ih htail⟩
        intro c hc
        exact ha c ((mem_rustDedup c (b :: rest)).mp hc)

theorem nodup_rustDedup :
    ∀ l : List String, l.Sorted (fun a b => strLe a b = true) → (rustDedup l).Nodup := by
  intro l
  induction l with
  | nil => intro _; simp [rustDedup]
  | cons a tail ih =>
    intro hs
    rw [List.sorted_cons] at hs
    obtain ⟨ha, htail⟩ := hs
    cases tail with
    | nil => simp [rustDedup]
    | cons b rest =>
      by_cases h : a = b
      · subst h
        rw [rustDedup_cons₂, if_pos rfl]
        exact ih htail
      · rw [rustDedup_cons₂, if_neg h]
        rw [List.nodup_cons]
        refine ⟨?_, ih htail⟩
        intro hmem
        rcases List.mem_cons.mp ((mem_rustDedup a (b :: rest)).mp hmem) with rfl | hmem
        · exact h rfl
        · have h1 : strLe a b = true := ha b (List.mem_cons_self b rest)
          have h2 : strLe b a = true :=
            (List.sorted_cons.mp htail).1 a hmem
          exact h (strLe_antisymm h1 h2)

/-! ### Characterisation of the per-line parse -/

theorem lineFpr_eq_some (line v : String) :
    lineFpr line = some v ↔
      rustStartsWith line "fpr:" = true ∧
        ∃ f, (rustSplit ':' line).get? 9 = some f ∧ rustTrim f = v ∧ v ≠ "" := by
  unfold lineFpr
  by_cases h1 : rustStartsWith line "fpr:" = true
  · rw [if_pos h1]
    by_cases h2 : 9 < (rustSplit ':' line).length
    · rw [dif_pos h2]
      by_cases h3 : rustTrim ((rustSplit ':' line).get ⟨9, h2⟩) ≠ ""
      · rw [if_pos h3]
        constructor
        · intro hv
          injection hv with hv
          refine ⟨h1, (rustSplit ':' line).get ⟨9, h2⟩, List.get?_eq_get h2, hv, ?_⟩
          rw [← hv]; exact h3
        · rintro ⟨-, f, hf, hfv, -⟩
          have hfe : (rustSplit ':' line).get ⟨9, h2⟩ = f := by
            have h' := List.get?_eq_get (l := rustSplit ':' line) h2
            rw [h'] at hf
            injection hf
          rw [hfe, hfv]
      · rw [if_neg h3]
        push_neg at h3
        constructor
        · intro hv; simp at hv
        · rintro ⟨-, f, hf, hfv, hne⟩
          exfalso
          have hfe : (rustSplit ':' line).get ⟨9, h2⟩ = f := by
            have h' := List.get?_eq_get (l := rustSplit ':' line) h2
            rw [h'] at hf
            injection hf
          rw [← hfe, h3] at hfv
          exact hne hfv.symm
    · rw [dif_neg h2]
      constructor
      · intro hv; simp at hv
      · rintro ⟨-, f, hf, -, -⟩
        exfalso
        obtain ⟨hlt, -⟩ := List.get?_eq_some.mp hf
        exact h2 hlt
  · rw [if_neg h1]
    constructor
    · intro hv; simp at hv
    · rintro ⟨hh, -⟩
      exact absurd hh h1

theorem parseLines_mem (ls : List String) (v : String) :
    v ∈ parseLines ls ↔ ∃ line ∈ ls, lineFpr line = some v := by
  unfold parseLines
  rw [mem_rustDedup, mem_rustSort, List.mem_filterMap]

/-! ### Claim theorems for the key-store inspector -/

/-- C1, counterexample to the claim as stated: the claim calls for the
distinct non-empty 10th-field values, but on the line `fpr::::::::: :` —
whose 10th colon field is the non-empty string `" "` — `parse_colons_fprs`
returns nothing, because the code trims the field before testing it for
emptiness. `claimedFprs` is the claim's words rendered directly. -/
theorem c1_untrimmed_field_counterexample :
    parse_colons_fprs "fpr::::::::: :" = [] ∧ claimedFprs "fpr::::::::: :" = [" "] := by
  decide

/-- C1, amended: for every input text, `parse_colons_fprs` returns exactly
the distinct values obtained by whitespace-trimming the 10th colon field of
lines starting with `fpr:` (values that trim to empty excluded), sorted
ascending with no duplicates; and the claim's concrete scenario holds, both
for the parser alone and end-to-end through `list_secret_fingerprints`. -/
theorem c1_parse_sorted_distinct_trimmed :
    (∀ s : String,
        (parse_colons_fprs s).Sorted (fun a b => strLe a b = true)
        ∧ (parse_colons_fprs s).Nodup
        ∧ ∀ v, v ∈ parse_colons_fprs s ↔
            ∃ line ∈ rustLines s, rustStartsWith line "fpr:" = true
              ∧ ∃ f, (rustSplit ':' line).get? 9 = some f ∧ rustTrim f = v ∧ v ≠ "")
    ∧ parse_colons_fprs "fpr:::::::::AAA1:\nfpr:::::::::AAA1:\nuid:::::::::irrelevant:"
        = ["AAA1"]
    ∧ list_secret_fingerprints (.ok ⟨true,
        "fpr:::::::::AAA1:\nfpr:::::::::AAA1:\nuid:::::::::irrelevant:", ""⟩)
        = .ok ["AAA1"] := by
  refine ⟨?_, by decide, rfl⟩
  intro s
  refine ⟨sorted_rustDedup _ (sorted_rustSort _), nodup_rustDedup _ (sorted_rustSort _), ?_⟩
  intro v
  unfold parse_colons_fprs
  rw [parseLines_mem]
  constructor
  · rintro ⟨line, hl, hf⟩
    obtain ⟨hs, f, hf9, htrim, hne⟩ := (lineFpr_eq_some line v).mp hf
    exact ⟨line, hl, hs, f, hf9, htrim, hne⟩
  · rintro ⟨line, hl, hs, f, hf9, htrim, hne⟩
    exact ⟨line, hl, (lineFpr_eq_some line v).mpr ⟨hs, f, hf9, htrim, hne⟩⟩

/-- C6: a line with the `fpr:` marker but fewer than 10 colon fields, or
whose 10th field is the empty string, contributes no fingerprint — its
per-line parse is `none` and removing it from the line list leaves the
parse result unchanged; the parser is a total function, so such lines cause
no error. -/
theorem c6_malformed_fpr_line_skipped (line : String)
    (hpre : rustStartsWith line "fpr:" = true)
    (hbad : (rustSplit ':' line).length ≤ 9 ∨ (rustSplit ':' line).get? 9 = some "") :
    lineFpr line = none
    ∧ ∀ pre post : List String, parseLines (pre ++ line :: post) = parseLines (pre ++ post) := by
  have hnone : lineFpr line = none := by
    unfold lineFpr
    rw [if_pos hpre]
    rcases hbad with h | h
    · rw [dif_neg (not_lt.mpr h)]
    · obtain ⟨h9, hf⟩ := List.get?_eq_some.mp h
      rw [dif_pos h9, hf]
      simp [rustTrim]
  refine ⟨hnone, fun pre post => ?_⟩
  unfold parseLines
  rw [List.filterMap_append, List.filterMap_append, List.filterMap_cons, hnone]

/-- C6 witness: the concrete short line `fpr:::` (4 fields) is skipped and
does not change the parse of a listing it is added to. -/
theorem c6_malformed_fpr_line_skipped_witness :
    lineFpr "fpr:::" = none
    ∧ parseLines (["fpr:::::::::AAA1:"] ++ "fpr:::" :: ["uid:x"])
        = parseLines (["fpr:::::::::AAA1:"] ++ ["uid:x"]) :=
  ⟨(c6_malformed_fpr_line_skipped "fpr:::" (by decide) (Or.inl (by decide))).1,
   (c6_malformed_fpr_line_skipped "fpr:::" (by decide) (Or.inl (by decide))).2
     ["fpr:::::::::AAA1:"] ["uid:x"]⟩

/-- C5: the availability check returns `Ok(true)` when the tool runs and
exits successfully, `Ok(false)` (not an error) when spawning fails with
`NotFound`, and an error for any other spawn failure such as
`PermissionDenied`. -/
theorem c5_available_trichotomy :
    (∀ o : ProcOutput, o.success = true → available (.ok o) = .ok true)
    ∧ (∀ e : RunError, e.kind = RunErrorKind.notFound → available (.error e) = .ok false)
    ∧ (∀ e : RunError, e.kind ≠ RunErrorKind.notFound →
        available (.error e) = .error ("Failed to run gpg: " ++ e.msg)) := by
  refine ⟨?_, ?_, ?_⟩
  · intro o h; simp [available, h]
  · intro e h; simp [available, h]
  · intro e h; simp [available, h]

/-- C5 witness: concrete instances of all three branches. -/
theorem c5_available_trichotomy_witness :
    available (.ok ⟨true, "gpg (GnuPG) 2.4.7", ""⟩) = .ok true
    ∧ available (.error ⟨RunErrorKind.notFound, "No such file or directory"⟩) = .ok false
    ∧ available (.error ⟨RunErrorKind.permissionDenied, "Permission denied"⟩)
        = .error ("Failed to run gpg: " ++ "Permission denied") :=
  ⟨c5_available_trichotomy.1 _ rfl,
   c5_available_trichotomy.2.1 _ rfl,
   c5_available_trichotomy.2.2 _ (by decide)⟩

/-- C9: when the tool is found and runs but exits with a non-zero status,
the availability check returns `Ok(false)` — neither `Ok(true)` nor an
error. -/
theorem c9_available_nonzero_exit (o : ProcOutput) (h : o.success = false) :
    available (.ok o) = .ok false := by
  simp [available, h]

/-- C9 witness: a concrete failed run. -/
theorem c9_available_nonzero_exit_witness :
    available (.ok ⟨false, "", "gpg: fatal"⟩) = .ok false :=
  c9_available_nonzero_exit ⟨false, "", "gpg: fatal"⟩ rfl

/-- C7: the version query returns, on successful exit, exactly the first
line of the captured standard output (the empty string when the output is
empty), and fails with an error on non-zero exit and on execution
failure. -/
theorem c7_version_line_spec :
    (∀ o : ProcOutput, o.success = true → version_line (.ok o) = .ok (firstLine o.stdout))
    ∧ firstLine "" = ""
    ∧ (∀ o : ProcOutput, o.success = false →
        version_line (.ok o) = .error "gpg --version failed")
    ∧ (∀ e : RunError, version_line (.error e) = .error ("Failed to run gpg: " ++ e.msg)) := by
  refine ⟨?_, rfl, ?_, ?_⟩
  · intro o h; simp [version_line, h]
  · intro o h; simp [version_line, h]
  · intro e; simp [version_line]

/-- C7 witness: concrete successful and failing runs. -/
theorem c7_version_line_spec_witness :
    version_line (.ok ⟨true, "gpg (GnuPG) 2.4.7\nlibgcrypt 1.11.0", ""⟩)
        = .ok "gpg (GnuPG) 2.4.7"
    ∧ version_line (.ok ⟨false, "", ""⟩) = .error "gpg --version failed" :=
  ⟨(c7_version_line_spec.1 ⟨true, "gpg (GnuPG) 2.4.7\nlibgcrypt 1.11.0", ""⟩ rfl).trans rfl,
   c7_version_line_spec.2.2.1 ⟨false, "", ""⟩ rfl⟩

/-! ### The chat transport adapter (`transport/src/lib.rs`)

Discord/twilight types are embedded as plain data: a message carries its
snowflake identifier and the fields `fetch_messages`/`convert_message_create`
read from it (`u64` identifiers become `Nat`; the code only compares them).
Network I/O is embedded by passing the remote side's behaviour explicitly. -/

deriving instance DecidableEq for Except

/-- The fields of a `twilight_model::channel::Message` that the adapter
reads: `id`, `channel_id`, `author.id`, `author.name`, `content`. -/
structure Msg where
  id : Nat
  channel_id : Nat
  author_id : Nat
  author : String
  content : String
deriving DecidableEq

/-- The `ChatEvent` struct of `transport/src/lib.rs`. -/
structure ChatEvent where
  channel_id : Nat
  author_id : Nat
  author : String
  content : String
deriving DecidableEq

/-- Model of `convert_message_create` (a `MessageCreate` payload dereferences
to its inner message); `fetch_messages` builds the identical `ChatEvent`
from a history message. -/
def convert_message_create (m : Msg) : ChatEvent :=
  ⟨m.channel_id, m.author_id, m.author, m.content⟩

/-! #### The gateway forwarding loop (`start_gateway`) -/

/-- A decoded gateway event: a `MessageCreate` or any other event variant. -/
inductive GatewayEvent where
  | messageCreate (m : Msg)
  | otherEvent (tag : Nat)
deriving DecidableEq

/-- One item yielded by `shard.next_event(...)`: `Ok(event)` or a receive
error; the end of the stream (`None`) is the end of the item list. -/
abbrev StreamItem := Except String GatewayEvent

/-- Observable state of the forwarding loop: the channel buffer (unread,
in send order), the receive errors logged so far, the events whose send
failed because the channel was closed (discarded by `let _ = ...`), and a
count of stream items consumed. -/
structure GatewayState where
  queue : List ChatEvent
  loggedErrors : List String
  droppedClosed : List ChatEvent
  seen : Nat
deriving DecidableEq

/-- The state in which the spawned task starts. -/
def initialGatewayState : GatewayState :=
  ⟨[], [], [], 0⟩

/-- The bound of `mpsc::channel::<ChatEvent>(1000)`. -/
def gatewayCapacity : Nat := 1000

/-- How a run of the forwarding loop ends: the stream was exhausted, or the
loop is suspended inside `tx.send(ev).await` waiting for queue space, with
the pending event and the unconsumed remainder of the stream. -/
inductive GatewayOutcome where
  | ended (final : GatewayState)
  | waitingForSpace (pending : ChatEvent) (rest : List StreamItem) (st : GatewayState)
deriving DecidableEq

/-- True exactly when the loop ran to the end of the stream. -/
def GatewayOutcome.finished : GatewayOutcome → Bool
  | .ended _ => true
  | .waitingForSpace _ _ _ => false

/-- Model of the loop spawned by `start_gateway`, run to completion against
a finite stream, with a consumer that performs no receives while the loop
runs and with `closed` recording whether the receiver has been dropped.
`tx.send(ev).await` on a tokio bounded channel returns an error at once when
the channel is closed (the code discards it with `let _ = ...`), enqueues
when the buffer holds fewer than `gatewayCapacity` items, and otherwise
suspends the task until space appears — which, with no concurrent receives,
is the `waitingForSpace` outcome. Receive errors are logged (`error!`) and
the loop continues; non-`MessageCreate` events are ignored. -/
def runGatewayLoop (closed : Bool) : List StreamItem → GatewayState → GatewayOutcome
  | [], st => .ended st
  | item :: rest, st =>
    match item with
    | .error e =>
      runGatewayLoop closed rest
        { st with loggedErrors := st.loggedErrors ++ [e], seen := st.seen + 1 }
    | .ok (.otherEvent _) =>
      runGatewayLoop closed rest { st with seen := st.seen + 1 }
    | .ok (.messageCreate m) =>
      if closed then
        runGatewayLoop closed rest
          { st with droppedClosed := st.droppedClosed ++ [convert_message_create m],
                    seen := st.seen + 1 }
      else if st.queue.length < gatewayCapacity then
        runGatewayLoop closed rest
          { st with queue := st.queue ++ [convert_message_create m], seen := st.seen + 1 }
      else
        .waitingForSpace (convert_message_create m) rest { st with seen := st.seen + 1 }

/-! #### The paginated history fetch (`fetch_messages`) -/

/-- Record of one `channel_messages` request: the `before` anchor (`none`
for the first, unanchored request), the `limit` passed, and the remote
side's response. -/
structure ReqRec where
  bef : Option Nat
  lim : Nat
  response : Except String (List Msg)
deriving DecidableEq

/-- The batch a request yielded (empty for an errored request). -/
def ReqRec.got (r : ReqRec) : List Msg :=
  match r.response with
  | .ok batch => batch
  | .error _ => []

/-- The remote side of `http.channel_messages(...)`: a function from the
`before` anchor and the requested limit to a response. It stands for one
fixed channel queried with one fixed credential. -/
abbrev Responder := Option Nat → Nat → Except String (List Msg)

/-- Model of the `while out.len() < limit` loop of `fetch_messages`,
instrumented with the list of requests it issues (in order). Each
iteration requests at most `min (limit - out.length) 100` messages; an
errored request aborts the whole fetch; an empty batch breaks the loop;
otherwise the batch is appended and the next request is anchored at the
batch's last (oldest) message identifier. -/
def fetchGo (respond : Responder) (limit : Nat) (out : List Msg) (bef : Option Nat) :
    Except String (List Msg) × List ReqRec :=
  if out.length < limit then
    match respond bef (min (limit - out.length) 100) with
    | .error e => (.error e, [⟨bef, min (limit - out.length) 100, .error e⟩])
    | .ok batch =>
      if hb : batch = [] then
        (.ok out, [⟨bef, min (limit - out.length) 100, .ok batch⟩])
      else
        ((fetchGo respond limit (out ++ batch) (some (batch.getLast hb).id)).1,
          ⟨bef, min (limit - out.length) 100, .ok batch⟩
            :: (fetchGo respond limit (out ++ batch) (some (batch.getLast hb).id)).2)
  else (.ok out, [])
termination_by limit - out.length
decreasing_by
  have hlen : 0 < batch.length := List.length_pos.mpr hb
  simp only [List.length_append]
  omega

/-- Model of `fetch_messages`: run the loop from an empty accumulator and
no anchor, then reverse into chronological order and convert each message.
The first component is the returned value, the second the requests
issued. -/
def fetch_messages (respond : Responder) (limit : Nat) :
    Except String (List ChatEvent) × List ReqRec :=
  match fetchGo respond limit [] none with
  | (.ok out, recs) => (.ok (out.reverse.map convert_message_create), recs)
  | (.error e, recs) => (.error e, recs)

/-- A remote channel holding exactly the messages `hist`, newest first, that
answers every request successfully: Discord returns the most recent messages
before the anchor (all messages when unanchored), newest first, at most
`limit` of them. -/
def channelResponder (hist : List Msg) : Responder := fun bef bs =>
  .ok ((match bef with
        | none => hist
        | some b => hist.filter (fun m => decide (m.id < b))).take bs)

/-- The identifier of the oldest message seen so far, when the accumulated
list (newest first) is non-empty. -/
def oldestId? (seen : List Msg) : Option Nat :=
  (seen.getLast?).map Msg.id

/-- `AnchoredFrom seen recs`: starting from already-seen messages `seen`
(newest first), every request in `recs` is anchored at the oldest message
identifier seen so far — `none` when nothing has been seen (the first,
unanchored request). -/
def AnchoredFrom : List Msg → List ReqRec → Prop
  | _, [] => True
  | seen, r :: rest => r.bef = oldestId? seen ∧ AnchoredFrom (seen ++ r.got) rest

/-- `hist` is strictly descending by message identifier (newest first, no
duplicate identifiers) — the order Discord serves history in. -/
def DescIds (hist : List Msg) : Prop :=
  hist.Pairwise (fun a b => b.id < a.id)

/-! #### Gateway loop step equations -/

theorem runGatewayLoop_nil (closed : Bool) (st : GatewayState) :
    runGatewayLoop closed [] st = .ended st := rfl

theorem runGatewayLoop_error (closed : Bool) (e : String) (rest : List StreamItem)
    (st : GatewayState) :
    runGatewayLoop closed (.error e :: rest) st
      = runGatewayLoop closed rest
          { st with loggedErrors := st.loggedErrors ++ [e], seen := st.seen + 1 } := rfl

theorem runGatewayLoop_other (closed : Bool) (tag : Nat) (rest : List StreamItem)
    (st : GatewayState) :
    runGatewayLoop closed (.ok (.otherEvent tag) :: rest) st
      = runGatewayLoop closed rest { st with seen := st.seen + 1 } := rfl

theorem runGatewayLoop_msg_open (m : Msg) (rest : List StreamItem) (st : GatewayState) :
    runGatewayLoop false (.ok (.messageCreate m) :: rest) st
      = if st.queue.length < gatewayCapacity then
          runGatewayLoop false rest
            { st with queue := st.queue ++ [convert_message_create m], seen := st.seen + 1 }
        else
          .waitingForSpace (convert_message_create m) rest { st with seen := st.seen + 1 } := rfl

theorem runGatewayLoop_msg_closed (m : Msg) (rest : List StreamItem) (st : GatewayState) :
    runGatewayLoop true (.ok (.messageCreate m) :: rest) st
      = runGatewayLoop true rest
          { st with droppedClosed := st.droppedClosed ++ [convert_message_create m],
                    seen := st.seen + 1 } := rfl

/-- Filling an open queue: as long as capacity is not exceeded, a burst of
message events is enqueued completely and the loop reaches the end of the
stream. -/
theorem runGatewayLoop_fill (m : Msg) :
    ∀ (k : Nat) (st : GatewayState), st.queue.length + k ≤ gatewayCapacity →
      runGatewayLoop false (List.replicate k (.ok (.messageCreate m))) st
        = .ended { st with queue := st.queue ++ List.replicate k (convert_message_create m),
                           seen := st.seen + k } := by
  intro k
  induction k with
  | zero =>
    intro st _
    simp [runGatewayLoop_nil]
  | succ k ih =>
    intro st h
    rw [List.replicate_succ, runGatewayLoop_msg_open, if_pos (by omega)]
    rw [ih _ (by simp only [List.length_append, List.length_singleton]; omega)]
    have hq : (st.queue ++ [convert_message_create m])
        ++ List.replicate k (convert_message_create m)
        = st.queue ++ List.replicate (k + 1) (convert_message_create m) := by
      rw [List.append_assoc, List.singleton_append, ← List.replicate_succ]
    have hs : st.seen + 1 + k = st.seen + (k + 1) := by omega
    rw [hq, hs]

/-- A burst of one more message event than the open queue can hold leaves
the loop suspended in the send of the final event, with nothing dropped. -/
theorem runGatewayLoop_overflow (m : Msg) :
    ∀ (k : Nat) (st : GatewayState), st.queue.length ≤ gatewayCapacity →
      st.queue.length + k = gatewayCapacity + 1 →
      runGatewayLoop false (List.replicate k (.ok (.messageCreate m))) st
        = .waitingForSpace (convert_message_create m) []
            { st with queue := st.queue ++ List.replicate (k - 1) (convert_message_create m),
                      seen := st.seen + k } := by
  intro k
  induction k with
  | zero =>
    intro st h1 h2
    exfalso; omega
  | succ k ih =>
    intro st h1 h2
    rw [List.replicate_succ, runGatewayLoop_msg_open]
    by_cases hlt : st.queue.length < gatewayCapacity
    · rw [if_pos hlt]
      rw [ih _ (by simp only [List.length_append, List.length_singleton]; omega)
            (by simp only [List.length_append, List.length_singleton]; omega)]
      have hrep : convert_message_create m :: List.replicate (k - 1) (convert_message_create m)
          = List.replicate (k + 1 - 1) (convert_message_create m) := by
        rw [← List.replicate_succ]
        congr 1
        omega
      have hq : (st.queue ++ [convert_message_create m])
          ++ List.replicate (k - 1) (convert_message_create m)
          = st.queue ++ List.replicate (k + 1 - 1) (convert_message_create m) := by
        rw [List.append_assoc, List.singleton_append, hrep]
      have hs : st.seen + 1 + k = st.seen + (k + 1) := by omega
      rw [hq, hs]
    · rw [if_neg hlt]
      have hk0 : k = 0 := by omega
      subst hk0
      simp

/-- A concrete inbound message used by the gateway witnesses. -/
def gwMsg : Msg := ⟨1, 2, 3, "alice", "hi"⟩

/-- A gateway state whose queue is at capacity. -/
def fullGatewayState : GatewayState :=
  ⟨List.replicate gatewayCapacity (convert_message_create gwMsg), [], [], 1000⟩

/-- C2, counterexample to the claim as stated: the claim says a message
event meeting a full queue is silently dropped rather than the producer
blocking — but on a stream of 1001 message events with no concurrent
receives, the loop (whose send is `tx.send(ev).await`, the awaiting tokio
send) suspends waiting for space with the 1001st event still pending:
nothing is dropped and the loop does not run to the end of the stream. -/
theorem c2_send_blocks_on_full_counterexample :
    runGatewayLoop false
        (List.replicate 1001 (.ok (.messageCreate gwMsg))) initialGatewayState
      = .waitingForSpace (convert_message_create gwMsg) []
          { queue := List.replicate 1000 (convert_message_create gwMsg),
            loggedErrors := [], droppedClosed := [], seen := 1001 }
    ∧ (runGatewayLoop false
        (List.replicate 1001 (.ok (.messageCreate gwMsg))) initialGatewayState).finished
        = false := by
  have h := runGatewayLoop_overflow gwMsg 1001 initialGatewayState
    (by simp [initialGatewayState, gatewayCapacity])
    (by simp [initialGatewayState, gatewayCapacity])
  exact ⟨h.trans rfl, by rw [h]; rfl⟩

/-- C2, amended: for every decoded message-created event the forwarder
performs an awaiting send into the bounded queue of capacity 1000; when the
queue has space the event is enqueued and the loop continues; when the
queue is full the producer suspends until space is available (no drop); and
only when the queue is closed is the event silently dropped — the send
error is discarded, not escalated, and the loop continues. -/
theorem c2_send_awaits_and_drops_only_when_closed (m : Msg) (rest : List StreamItem)
    (st : GatewayState) :
    (st.queue.length < gatewayCapacity →
      runGatewayLoop false (.ok (.messageCreate m) :: rest) st
        = runGatewayLoop false rest
            { st with queue := st.queue ++ [convert_message_create m], seen := st.seen + 1 })
    ∧ (gatewayCapacity ≤ st.queue.length →
      runGatewayLoop false (.ok (.messageCreate m) :: rest) st
        = .waitingForSpace (convert_message_create m) rest { st with seen := st.seen + 1 })
    ∧ runGatewayLoop true (.ok (.messageCreate m) :: rest) st
        = runGatewayLoop true rest
            { st with droppedClosed := st.droppedClosed ++ [convert_message_create m],
                      seen := st.seen + 1 }
    ∧ gatewayCapacity = 1000 := by
  refine ⟨?_, ?_, runGatewayLoop_msg_closed m rest st, rfl⟩
  · intro h
    rw [runGatewayLoop_msg_open, if_pos h]
  · intro h
    rw [runGatewayLoop_msg_open, if_neg (not_lt.mpr h)]

/-- C2 witness: the three send behaviours at concrete states. -/
theorem c2_send_awaits_witness :
    runGatewayLoop false [.ok (.messageCreate gwMsg)] initialGatewayState
      = runGatewayLoop false []
          { initialGatewayState with
              queue := initialGatewayState.queue ++ [convert_message_create gwMsg],
              seen := initialGatewayState.seen + 1 }
    ∧ runGatewayLoop false [.ok (.messageCreate gwMsg)] fullGatewayState
      = .waitingForSpace (convert_message_create gwMsg) []
          { fullGatewayState with seen := fullGatewayState.seen + 1 }
    ∧ runGatewayLoop true [.ok (.messageCreate gwMsg)] initialGatewayState
      = runGatewayLoop true []
          { initialGatewayState with
              droppedClosed := initialGatewayState.droppedClosed ++ [convert_message_create gwMsg],
              seen := initialGatewayState.seen + 1 } :=
  ⟨(c2_send_awaits_and_drops_only_when_closed gwMsg [] initialGatewayState).1
      (by simp [initialGatewayState, gatewayCapacity]),
   (c2_send_awaits_and_drops_only_when_closed gwMsg [] fullGatewayState).2.1
      (by simp [fullGatewayState]),
   (c2_send_awaits_and_drops_only_when_closed gwMsg [] initialGatewayState).2.2.1⟩

/-- C8: the loop yields `ended` on the empty stream; a receive error is
logged and the loop continues with the rest of the stream (it never ends
the loop); and whenever the loop ends, it has consumed the entire stream —
end of stream is the only way to `ended`. -/
theorem c8_ends_only_on_stream_end :
    (∀ (closed : Bool) (st : GatewayState), runGatewayLoop closed [] st = .ended st)
    ∧ (∀ (closed : Bool) (e : String) (rest : List StreamItem) (st : GatewayState),
        runGatewayLoop closed (.error e :: rest) st
          = runGatewayLoop closed rest
              { st with loggedErrors := st.loggedErrors ++ [e], seen := st.seen + 1 })
    ∧ (∀ (closed : Bool) (items : List StreamItem) (st fin : GatewayState),
        runGatewayLoop closed items st = .ended fin → fin.seen = st.seen + items.length) := by
  refine ⟨fun _ _ => rfl, fun _ _ _ _ => rfl, ?_⟩
  intro closed items
  induction items with
  | nil =>
    intro st fin h
    rw [runGatewayLoop_nil] at h
    injection h with h
    subst h
    simp
  | cons item rest ih =>
    intro st fin h
    cases item with
    | error e =>
      rw [runGatewayLoop_error] at h
      have hs : fin.seen = st.seen + 1 + rest.length := ih _ _ h
      simp only [List.length_cons]
      omega
    | ok ev =>
      cases ev with
      | otherEvent tag =>
        rw [runGatewayLoop_other] at h
        have hs : fin.seen = st.seen + 1 + rest.length := ih _ _ h
        simp only [List.length_cons]
        omega
      | messageCreate m =>
        cases closed with
        | true =>
          rw [runGatewayLoop_msg_closed] at h
          have hs : fin.seen = st.seen + 1 + rest.length := ih _ _ h
          simp only [List.length_cons]
          omega
        | false =>
          rw [runGatewayLoop_msg_open] at h
          by_cases hlt : st.queue.length < gatewayCapacity
          · rw [if_pos hlt] at h
            have hs : fin.seen = st.seen + 1 + rest.length := ih _ _ h
            simp only [List.length_cons]
            omega
          · rw [if_neg hlt] at h
            cases h

/-- C8 witness: a stream consisting of a single receive error still ends
with the whole stream consumed, the error merely logged. -/
theorem c8_ends_only_on_stream_end_witness :
    (⟨[], ["boom"], [], 1⟩ : GatewayState).seen
      = initialGatewayState.seen + ([.error "boom"] : List StreamItem).length :=
  c8_ends_only_on_stream_end.2.2 false [.error "boom"] initialGatewayState
    ⟨[], ["boom"], [], 1⟩ rfl

/-! #### Fetch loop step equations -/

theorem anchoredFrom_nil (seen : List Msg) : AnchoredFrom seen [] :=
  trivial

theorem anchoredFrom_cons (seen : List Msg) (r : ReqRec) (rest : List ReqRec) :
    AnchoredFrom seen (r :: rest) ↔
      r.bef = oldestId? seen ∧ AnchoredFrom (seen ++ r.got) rest :=
  Iff.rfl

theorem fetchGo_stop (respond : Responder) (limit : Nat) (out : List Msg) (bef : Option Nat)
    (h : ¬ out.length < limit) :
    fetchGo respond limit out bef = (.ok out, []) := by
  unfold fetchGo
  rw [if_neg h]

theorem fetchGo_empty_batch (respond : Responder) (limit : Nat) (out : List Msg)
    (bef : Option Nat) (h : out.length < limit)
    (hresp : respond bef (min (limit - out.length) 100) = .ok []) :
    fetchGo respond limit out bef
      = (.ok out, [⟨bef, min (limit - out.length) 100, .ok []⟩]) := by
  conv_lhs => rw [fetchGo]
  rw [if_pos h, hresp]
  rfl

theorem fetchGo_cons (respond : Responder) (limit : Nat) (out : List Msg)
    (bef : Option Nat) (batch : List Msg) (h : out.length < limit)
    (hresp : respond bef (min (limit - out.length) 100) = .ok batch) (hb : batch ≠ []) :
    fetchGo respond limit out bef
      = ((fetchGo respond limit (out ++ batch) (some (batch.getLast hb).id)).1,
          ⟨bef, min (limit - out.length) 100, .ok batch⟩
            :: (fetchGo respond limit (out ++ batch) (some (batch.getLast hb).id)).2) := by
  conv_lhs => rw [fetchGo]
  rw [if_pos h, hresp]
  simp only [dif_neg hb]

/-! #### The honest-channel responder -/

/-- On a strictly descending history, filtering for identifiers before the
last element of a non-empty prefix is exactly dropping that prefix. -/
theorem filter_lt_getLast_take (hist : List Msg) (hd : DescIds hist) (k : Nat)
    (b : Msg) (hb : (hist.take k).getLast? = some b) :
    hist.filter (fun m => decide (m.id < b.id)) = hist.drop k := by
  have hpw : (hist.take k ++ hist.drop k).Pairwise (fun a c => c.id < a.id) := by
    rw [List.take_append_drop]
    exact hd
  rw [List.pairwise_append] at hpw
  obtain ⟨hpw1, -, hcross⟩ := hpw
  obtain ⟨ys, hys⟩ := List.getLast?_eq_some_iff.mp hb
  have hbmem : b ∈ hist.take k := by
    rw [hys]
    exact List.mem_append_right ys (List.mem_singleton.mpr rfl)
  have h1 : (hist.take k).filter (fun m => decide (m.id < b.id)) = [] := by
    rw [List.filter_eq_nil_iff]
    intro a ha
    simp only [decide_eq_true_eq, not_lt]
    rw [hys] at ha hpw1
    rw [List.pairwise_append] at hpw1
    obtain ⟨-, -, hys_b⟩ := hpw1
    rcases List.mem_append.mp ha with ha | ha
    · exact le_of_lt (hys_b a ha b (List.mem_singleton.mpr rfl))
    · rw [List.mem_singleton.mp ha]
  have h2 : (hist.drop k).filter (fun m => decide (m.id < b.id)) = hist.drop k := by
    rw [List.filter_eq_self]
    intro a ha
    simp only [decide_eq_true_eq]
    exact hcross b hbmem a ha
  conv_lhs => rw [← List.take_append_drop k hist]
  rw [List.filter_append, h1, h2, List.nil_append]

/-- Evaluating the honest responder at the anchor the loop maintains: it
serves the next slice of the history. -/
theorem channelResponder_eval (hist : List Msg) (hd : DescIds hist) (k bs : Nat)
    (hk : k ≤ hist.length) :
    channelResponder hist (oldestId? (hist.take k)) bs = .ok ((hist.drop k).take bs) := by
  unfold channelResponder oldestId?
  cases hkz : (hist.take k).getLast? with
  | none =>
    have htk : hist.take k = [] := by
      cases h : hist.take k with
      | nil => rfl
      | cons a l =>
        rw [h] at hkz
        rw [List.getLast?_eq_getLast (a :: l) (by simp)] at hkz
        cases hkz
    rcases List.take_eq_nil_iff.mp htk with rfl | rfl
    · simp
    · simp
  | some b =>
    simp only [Option.map_some']
    rw [filter_lt_getLast_take hist hd k b hkz]

/-- Master invariant of the fetch loop against an honest descending
channel: starting from the already-fetched prefix `hist.take k` and the
matching anchor, the loop returns the first `min limit hist.length`
messages (newest first); every issued request is anchored at the oldest
identifier seen so far and asks for between 1 and 100 messages; at least
one request is issued when the requested count is not yet reached; the
final request returns the empty batch when the history runs out before the
count is reached; and when the history suffices, exactly
`(limit - k + 99) / 100` requests are issued. -/
theorem fetchGo_channel_spec (hist : List Msg) (limit : Nat) (hd : DescIds hist) :
    ∀ (n k : Nat) (res : Except String (List Msg)) (recs : List ReqRec),
      limit - k = n → k ≤ limit → k ≤ hist.length →
      fetchGo (channelResponder hist) limit (hist.take k) (oldestId? (hist.take k))
        = (res, recs) →
      res = .ok (hist.take (min limit hist.length))
      ∧ AnchoredFrom (hist.take k) recs
      ∧ (∀ r ∈ recs, 0 < r.lim ∧ r.lim ≤ 100 ∧ ∃ batch, r.response = .ok batch)
      ∧ (k < limit → recs ≠ [])
      ∧ (hist.length < limit → (recs.getLast?).map ReqRec.response = some (.ok []))
      ∧ (limit ≤ hist.length → recs.length = (limit - k + 99) / 100) := by
  intro n
  induction n using Nat.strong_induction_on with
  | _ n ih =>
    intro k res recs hn hk1 hk2 hfg
    have hlen : (hist.take k).length = k := by
      rw [List.length_take]
      omega
    by_cases hkl : k < limit
    case neg =>
      rw [fetchGo_stop _ _ _ _ (by rw [hlen]; exact hkl)] at hfg
      rw [Prod.mk.injEq] at hfg
      obtain ⟨hres, hrecs⟩ := hfg
      subst hres
      subst hrecs
      have hkeq : k = limit := by omega
      subst hkeq
      refine ⟨?_, anchoredFrom_nil _, by simp, ?_, ?_, ?_⟩
      · have hmin : min k hist.length = k := by omega
        rw [hmin]
      · intro h
        exact absurd h (lt_irrefl k)
      · intro h
        exfalso
        omega
      · intro _
        simp only [List.length_nil]
        omega
    case pos =>
      have hresp : channelResponder hist (oldestId? (hist.take k))
            (min (limit - (hist.take k).length) 100)
          = .ok ((hist.drop k).take (min (limit - (hist.take k).length) 100)) :=
        channelResponder_eval hist hd k _ hk2
      by_cases hbe : (hist.drop k).take (min (limit - (hist.take k).length) 100) = []
      · -- the request returns the empty batch: the history is exhausted
        rw [hbe] at hresp
        rw [fetchGo_empty_batch _ _ _ _ (by rw [hlen]; exact hkl) hresp] at hfg
        rw [Prod.mk.injEq] at hfg
        obtain ⟨hres, hrecs⟩ := hfg
        subst hres
        subst hrecs
        have hkh : k = hist.length := by
          have h0 := congrArg List.length hbe
          rw [List.length_take, List.length_drop] at h0
          simp only [List.length_nil] at h0
          rw [hlen] at h0
          omega
        refine ⟨?_, (anchoredFrom_cons _ _ _).mpr ⟨rfl, anchoredFrom_nil _⟩, ?_, ?_, ?_, ?_⟩
        · have hmin : min limit hist.length = k := by omega
          rw [hmin]
        · intro r hr
          obtain rfl := List.mem_singleton.mp hr
          refine ⟨?_, ?_, ⟨[], rfl⟩⟩
          · show 0 < min (limit - (hist.take k).length) 100
            rw [hlen]
            omega
          · show min (limit - (hist.take k).length) 100 ≤ 100
            omega
        · intro _
          simp
        · intro _
          rfl
        · intro h
          exfalso
          omega
      · -- a non-empty batch is appended and the loop recurses
        rw [fetchGo_cons _ _ _ _ _ (by rw [hlen]; exact hkl) hresp hbe] at hfg
        set batch := (hist.drop k).take (min (limit - (hist.take k).length) 100) with hbatch
        have hblen : batch.length = min (min (limit - k) 100) (hist.length - k) := by
          rw [hbatch, List.length_take, List.length_drop, hlen]
        have hbpos : 0 < batch.length := List.length_pos.mpr hbe
        have hk'le : k + batch.length ≤ hist.length := by omega
        have hk'lim : k + batch.length ≤ limit := by omega
        have htake' : hist.take k ++ batch = hist.take (k + batch.length) := by
          rw [List.take_add]
          congr 1
          rw [hbatch, hlen, List.length_take, List.length_drop]
          apply List.take_eq_take.mpr
          rw [List.length_drop]
          omega
        have hanchor' : (some ((batch.getLast hbe).id) : Option Nat)
            = oldestId? (hist.take (k + batch.length)) := by
          unfold oldestId?
          rw [← htake', List.getLast?_append, List.getLast?_eq_getLast batch hbe]
          rfl
        rw [htake', hanchor'] at hfg
        rcases hFeq : fetchGo (channelResponder hist) limit (hist.take (k + batch.length))
            (oldestId? (hist.take (k + batch.length))) with ⟨res', recs'⟩
        rw [hFeq] at hfg
        rw [Prod.mk.injEq] at hfg
        obtain ⟨hres, hrecs⟩ := hfg
        subst hres
        subst hrecs
        obtain ⟨ihres, ihanch, ihall, ihne, ihlast, ihcount⟩ :=
          ih (limit - (k + batch.length)) (by omega) (k + batch.length) res' recs' rfl
            hk'lim hk'le hFeq
        refine ⟨ihres, ?_, ?_, ?_, ?_, ?_⟩
        · refine (anchoredFrom_cons _ _ _).mpr ⟨rfl, ?_⟩
          show AnchoredFrom (hist.take k ++ batch) recs'
          rw [htake']
          exact ihanch
        · intro r hr
          rcases List.mem_cons.mp hr with rfl | hr
          · refine ⟨?_, ?_, ⟨batch, rfl⟩⟩
            · show 0 < min (limit - (hist.take k).length) 100
              rw [hlen]
              omega
            · show min (limit - (hist.take k).length) 100 ≤ 100
              omega
          · exact ihall r hr
        · intro _
          exact List.cons_ne_nil _ _
        · intro hlt
          have hrne : recs' ≠ [] := ihne (by omega)
          show ((⟨oldestId? (hist.take k), min (limit - (hist.take k).length) 100,
              .ok batch⟩ :: recs' : List ReqRec).getLast?).map ReqRec.response
            = some (.ok [])
          cases hgl : recs'.getLast? with
          | none =>
            exfalso
            have hl := ihlast hlt
            rw [hgl] at hl
            simp at hl
          | some rlast =>
            have hil := ihlast hlt
            rw [hgl] at hil
            rw [show (⟨oldestId? (hist.take k), min (limit - (hist.take k).length) 100,
                  .ok batch⟩ :: recs' : List ReqRec)
                = [⟨oldestId? (hist.take k), min (limit - (hist.take k).length) 100,
                    .ok batch⟩] ++ recs' from rfl,
              List.getLast?_append, hgl]
            exact hil
        · intro hll
          have hcnt := ihcount hll
          show (_ :: recs').length = (limit - k + 99) / 100
          rw [List.length_cons, hcnt]
          omega

/-! #### A concrete descending channel for the witnesses -/

/-- A history message with identifier `i`. -/
def mkHistMsg (i : Nat) : Msg :=
  ⟨i, 5, 7, "alice", "hello"⟩

/-- A channel of `n` messages with identifiers `n, n-1, ..., 1` (newest
first, as Discord serves them). -/
def descHist (n : Nat) : List Msg :=
  (List.range n).map (fun i => mkHistMsg (n - i))

theorem descHist_desc (n : Nat) : DescIds (descHist n) := by
  unfold DescIds descHist
  rw [List.pairwise_map]
  refine List.Pairwise.imp_of_mem ?_ (List.pairwise_lt_range n)
  intro a b ha hb hab
  have hbn : b < n := List.mem_range.mp hb
  show (mkHistMsg (n - b)).id < (mkHistMsg (n - a)).id
  simp only [mkHistMsg]
  omega

theorem descHist_length (n : Nat) : (descHist n).length = n := by
  simp [descHist]

/-! ### Claim theorems for the paginated fetch -/

/-- C3: against a strictly descending channel holding at least `C > 100`
messages, the fetch returns exactly the `C` most recent messages in
chronological (oldest-first) order — literally the reversed `C`-prefix of
the newest-first history, hence no duplicate and no missing entry at batch
boundaries — using at least two requests, each asking for at most 100
messages, the first unanchored and every later one anchored at the oldest
message identifier seen so far. -/
theorem c3_fetch_paginated_exact_count (hist : List Msg) (C : Nat) (hd : DescIds hist)
    (hC : 100 < C) (hlen : C ≤ hist.length) :
    (fetch_messages (channelResponder hist) C).1
        = .ok ((hist.take C).reverse.map convert_message_create)
    ∧ ((hist.take C).reverse.map convert_message_create).length = C
    ∧ 2 ≤ (fetch_messages (channelResponder hist) C).2.length
    ∧ AnchoredFrom [] (fetch_messages (channelResponder hist) C).2
    ∧ ∀ r ∈ (fetch_messages (channelResponder hist) C).2, 0 < r.lim ∧ r.lim ≤ 100 := by
  rcases hF : fetchGo (channelResponder hist) C [] none with ⟨res, recs⟩
  have hF0 : fetchGo (channelResponder hist) C (hist.take 0) (oldestId? (hist.take 0))
      = (res, recs) := hF
  obtain ⟨hres, hanch, hall, -, -, hcount⟩ :=
    fetchGo_channel_spec hist C hd (C - 0) 0 res recs rfl (Nat.zero_le C) (Nat.zero_le _) hF0
  have hmin : min C hist.length = C := by omega
  rw [hmin] at hres
  have hfm : fetch_messages (channelResponder hist) C
      = (.ok ((hist.take C).reverse.map convert_message_create), recs) := by
    unfold fetch_messages
    rw [hF, hres]
  refine ⟨by rw [hfm], ?_, ?_, ?_, ?_⟩
  · rw [List.length_map, List.length_reverse, List.length_take]
    omega
  · rw [hfm]
    show 2 ≤ recs.length
    have hc := hcount hlen
    omega
  · rw [hfm]
    show AnchoredFrom [] recs
    exact hanch
  · rw [hfm]
    intro r hr
    exact ⟨(hall r hr).1, (hall r hr).2.1⟩

/-- C3 witness: a concrete strictly descending channel of 101 messages
fetched with desired count 101. -/
theorem c3_fetch_paginated_exact_count_witness :
    (fetch_messages (channelResponder (descHist 101)) 101).1
        = .ok (((descHist 101).take 101).reverse.map convert_message_create)
    ∧ (((descHist 101).take 101).reverse.map convert_message_create).length = 101
    ∧ 2 ≤ (fetch_messages (channelResponder (descHist 101)) 101).2.length
    ∧ AnchoredFrom [] (fetch_messages (channelResponder (descHist 101)) 101).2
    ∧ ∀ r ∈ (fetch_messages (channelResponder (descHist 101)) 101).2,
        0 < r.lim ∧ r.lim ≤ 100 :=
  c3_fetch_paginated_exact_count (descHist 101) 101 (descHist_desc 101) (by omega)
    (descHist_length 101).ge

/-- C4: against a strictly descending channel holding fewer than `C`
messages, the fetch terminates (the model is a total function whose final
request returns the empty batch, ending the loop), returns without error,
and yields all available messages in chronological (oldest-first) order. -/
theorem c4_fetch_exhausts_history (hist : List Msg) (C : Nat) (hd : DescIds hist)
    (hlen : hist.length < C) :
    (fetch_messages (channelResponder hist) C).1
        = .ok (hist.reverse.map convert_message_create)
    ∧ (fetch_messages (channelResponder hist) C).2 ≠ []
    ∧ ((fetch_messages (channelResponder hist) C).2.getLast?).map ReqRec.response
        = some (.ok []) := by
  rcases hF : fetchGo (channelResponder hist) C [] none with ⟨res, recs⟩
  have hF0 : fetchGo (channelResponder hist) C (hist.take 0) (oldestId? (hist.take 0))
      = (res, recs) := hF
  obtain ⟨hres, -, -, hne, hlast, -⟩ :=
    fetchGo_channel_spec hist C hd (C - 0) 0 res recs rfl (Nat.zero_le C) (Nat.zero_le _) hF0
  have hmin : min C hist.length = hist.length := by omega
  rw [hmin, List.take_length] at hres
  have hfm : fetch_messages (channelResponder hist) C
      = (.ok (hist.reverse.map convert_message_create), recs) := by
    unfold fetch_messages
    rw [hF, hres]
  refine ⟨by rw [hfm], ?_, ?_⟩
  · rw [hfm]
    show recs ≠ []
    exact hne (by omega)
  · rw [hfm]
    show (recs.getLast?).map ReqRec.response = some (.ok [])
    exact hlast hlen

/-- C4 witness: a concrete channel of 3 messages fetched with desired
count 5. -/
theorem c4_fetch_exhausts_history_witness :
    (fetch_messages (channelResponder (descHist 3)) 5).1
        = .ok ((descHist 3).reverse.map convert_message_create)
    ∧ (fetch_messages (channelResponder (descHist 3)) 5).2 ≠ []
    ∧ ((fetch_messages (channelResponder (descHist 3)) 5).2.getLast?).map ReqRec.response
        = some (.ok []) :=
  c4_fetch_exhausts_history (descHist 3) 5 (descHist_desc 3)
    (by rw [descHist_length]; omega)

/-- C10: a fetch with desired count 0 issues no request at all (the
request log is empty) and returns the empty list without error — for every
remote behaviour, hence for every channel identifier and credential. -/
theorem c10_fetch_zero_no_request (respond : Responder) :
    fetch_messages respond 0 = (.ok [], []) := by
  unfold fetch_messages
  rw [fetchGo_stop respond 0 [] none (by simp)]
  rfl

end PgpDisc
